import Mathlib

/-!
Verification development for the 802.11ax channel-bonding PHY core
(interference accounting, effective-SNR combining, payload PER evaluation,
channel-bonding width decision and PHY receive bookkeeping).

The shallow embedding below follows the source files of the repository:

* `src/wifi/model/interference-helper.h` : the `Event` class, the per-band
  `NiChange` interference ledger and the SNR/PER evaluation interface;
* `src/wifi/test/channel-bonding-test.cc` : the effective-SNR worked examples
  and the dynamic channel-bonding (PIFS) scenarios;
* `src/unnamed/part_001` (`wifi-phy.h`) : the PHY receive state bookkeeping,
  `GetDelayUntilIdle`, `GetUsableChannelWidth` and `AbortCurrentReception`
  declarations.

The repository ships only the headers and the test file; the corresponding
implementation files (`interference-helper.cc`, `wifi-phy.cc`,
`wifi-phy-state-helper.cc`, the channel-bonding managers) are not part of the
sources.  Where a definition's body is missing it is modelled from the
specification, and its doc comment says so explicitly.
-/

namespace WifiFormal

/-! ## dB / linear conversions

The source works with linear power ratios and converts for reporting with
`RatioToDb` / `DbToRatio` (base-10 decibels).  Real numbers stand in for the
C++ `double`s. -/

/-- Linear ratio corresponding to `d` dB: `10 ^ (d / 10)`. -/
noncomputable def dbToRatio (d : ℝ) : ℝ := (10 : ℝ) ^ (d / 10)

/-- dB value of a linear ratio `r`: `10 * log10 r`. -/
noncomputable def ratioToDb (r : ℝ) : ℝ := 10 * Real.log r / Real.log 10

/-- Minimum of a list of linear SNR values (the worst active sub-band).
An empty list yields 0; the source never queries it on an empty band set. -/
noncomputable def linearMin : List ℝ → ℝ
  | [] => 0
  | [x] => x
  | x :: y :: rest => min x (linearMin (y :: rest))

/-- Modelled from the spec: the effective-SNR combining rule of §4.3 (the body
of the interference helper's SNR combination is in `interference-helper.cc`,
which is not among the sources).  Given the linear SNR of every active 20 MHz
sub-band, take the minimum across active sub-bands and, for a bonded
transmission (more than one active sub-band), add the empirical logarithmic
bonus `15 * ln N` to that minimum — in the linear domain, exactly as the
worked examples of `TestEffectiveSnrCalculations::DoRun` compute it
(`SNR eff = 2 + (15 * ln(2)) = 12.5 = 10.9 dB`). -/
noncomputable def calculateEffectiveSnr (snrPerBand : List ℝ) : ℝ :=
  if snrPerBand.length ≤ 1 then linearMin snrPerBand
  else linearMin snrPerBand + 15 * Real.log (snrPerBand.length : ℝ)

/-! ## Signal events and the per-band interference ledger

Embedding of `interference-helper.h`.  Simulation `Time` (an `int64` count of
femtoseconds in the source) is `ℤ`; powers in watts (`double`) are `ℚ`, since
the ledger only adds and compares them. -/

/-- A pair of a center frequency and a channel width
(`typedef std::pair<uint16_t, uint16_t> FrequencyWidthPair`). -/
abbrev FrequencyWidthPair := ℕ × ℕ

/-- Channel band to rx power map
(`typedef std::map<FrequencyWidthPair, double> RxPowerWattPerChannelBand`),
modelled as an association list. -/
abbrev RxPowerWattPerChannelBand := List (FrequencyWidthPair × ℚ)

/-- `WifiTxVector` is declared in `wifi-tx-vector.h`, which is not among the
sources; the ledger and the `Event` class only store and return it, so it is
modelled as an opaque token. -/
structure WifiTxVector where
  raw : ℕ
deriving DecidableEq, Repr

/-- The `Event` class of `interference-helper.h`: signal event for a packet,
holding the packet (modelled by an identifier), the TXVECTOR, the absolute
start and end times and the receive power per channel band. -/
structure Event where
  packet : ℕ
  txVector : WifiTxVector
  startTime : ℤ
  endTime : ℤ
  rxPowerW : RxPowerWattPerChannelBand
deriving DecidableEq, Repr

/-- `Event::SetTxVector`: sets the TXVECTOR of an existing event. -/
def Event.setTxVector (e : Event) (v : WifiTxVector) : Event :=
  { e with txVector := v }

/-- Lookup of the receive power of a band in an event's per-band power map
(`Event::GetRxPowerW (band)`). -/
def rxPowerLookup : RxPowerWattPerChannelBand → FrequencyWidthPair → Option ℚ
  | [], _ => none
  | (b, p) :: rest, band => if b = band then some p else rxPowerLookup rest band

/-- A noise-and-interference change (`InterferenceHelper::NiChange`): a power
delta tagged with the event that caused it.  Modelled from the spec (§ data
model): the ledger stores signed power deltas, positive at a signal's start
and negative at its end (`interference-helper.cc` is not among the sources). -/
structure NiChange where
  power : ℚ
  event : Event
deriving DecidableEq, Repr

/-- `InterferenceHelper::NiChanges`: a time-ordered multimap of `NiChange`,
modelled as a list of (time, change) pairs kept sorted by time. -/
abbrev NiChanges := List (ℤ × NiChange)

/-- Non-decreasing time order of a ledger, the multimap invariant. -/
def sortedNi (ni : NiChanges) : Prop :=
  List.Chain' (fun a b => a.1 ≤ b.1) ni

/-- Ordered insertion into a `NiChanges` list: the new entry is placed before
the first entry with a strictly later time (after existing entries with equal
time, as `std::multimap::insert` does). -/
def niInsert (moment : ℤ) (change : NiChange) : NiChanges → NiChanges
  | [] => [(moment, change)]
  | entry :: rest =>
    if moment < entry.1 then (moment, change) :: entry :: rest
    else entry :: niInsert moment change rest

/-- Sum of `f` over all ledger entries; the common shape of the ledger's
cumulative queries. -/
def niSumBy (f : ℤ × NiChange → ℚ) (ni : NiChanges) : ℚ :=
  (ni.map f).sum

/-- `PowerAt` from the spec (§4.2): cumulative sum of all deltas in the band's
ledger up to and including `t`, the noise-plus-interference power at `t`. -/
def powerAt (ni : NiChanges) (t : ℤ) : ℚ :=
  niSumBy (fun x => if x.1 ≤ t then x.2.power else 0) ni

/-- Sum of the ledger deltas contributed by (tagged with) one signal event. -/
def eventDeltaSum (ni : NiChanges) (e : Event) : ℚ :=
  niSumBy (fun x => if x.2.event = e then x.2.power else 0) ni

/-- The `InterferenceHelper` ledger state: the `NiChanges` multimap of every
frequency band (`m_niChangesPerBand`). -/
structure InterferenceHelper where
  niChangesPerBand : FrequencyWidthPair → NiChanges

/-- `InterferenceHelper::AddNiChangeEvent`: add a `NiChange` to the band's
list at the appropriate (time-ordered) position. -/
def InterferenceHelper.addNiChangeEvent (st : InterferenceHelper) (moment : ℤ)
    (change : NiChange) (band : FrequencyWidthPair) : InterferenceHelper :=
  ⟨fun b =>
    if b = band then niInsert moment change (st.niChangesPerBand b)
    else st.niChangesPerBand b⟩

/-- Modelled from the spec (§4.2 `AddSignal`, data-model `NiChange`):
`InterferenceHelper::AppendEvent` inserts, for every band the signal
occupies, a positive delta at the signal's start time and the inverse
negative delta at its end time (`interference-helper.cc` is not among the
sources).  This helper walks the event's per-band power map. -/
def InterferenceHelper.appendEventBands (st : InterferenceHelper) (e : Event) :
    RxPowerWattPerChannelBand → InterferenceHelper
  | [] => st
  | (band, power) :: rest =>
    (((st.addNiChangeEvent e.startTime ⟨power, e⟩ band).addNiChangeEvent
        e.endTime ⟨-power, e⟩ band)).appendEventBands e rest

/-- `InterferenceHelper::AppendEvent`: append the given event's deltas to the
ledgers of all bands it occupies. -/
def InterferenceHelper.appendEvent (st : InterferenceHelper) (e : Event) :
    InterferenceHelper :=
  st.appendEventBands e e.rxPowerW

/-- `InterferenceHelper::Add`: create the signal event for a packet arriving
now with the given duration and per-band receive power, append it to the
ledger, and return it. -/
def InterferenceHelper.add (st : InterferenceHelper) (now : ℤ) (packet : ℕ)
    (txVector : WifiTxVector) (duration : ℤ)
    (rxPowerW : RxPowerWattPerChannelBand) : Event × InterferenceHelper :=
  let e : Event := ⟨packet, txVector, now, now + duration, rxPowerW⟩
  (e, st.appendEvent e)

/-- `InterferenceHelper::AddForeignSignal`: add a non-Wifi signal, an event
with a zero-size packet and a default TXVECTOR. -/
def InterferenceHelper.addForeignSignal (st : InterferenceHelper) (now : ℤ)
    (duration : ℤ) (rxPowerW : RxPowerWattPerChannelBand) : InterferenceHelper :=
  (st.add now 0 ⟨0⟩ duration rxPowerW).2

/-- Modelled from the spec (§4.2): the noise-plus-interference power a given
event experiences in a band is the ledger's cumulative power at the event's
start time minus the event's own contribution to that band
(`InterferenceHelper::CalculateNoiseInterferenceW`;
`interference-helper.cc` is not among the sources). -/
def InterferenceHelper.calculateNoiseInterferenceW (st : InterferenceHelper)
    (e : Event) (band : FrequencyWidthPair) : ℚ :=
  powerAt (st.niChangesPerBand band) e.startTime -
    (rxPowerLookup e.rxPowerW band).getD 0

/-! ## Payload PER evaluation (§4.3 steps 1 and 4)

The requested window is partitioned into chunks at the ledger-change
boundaries; each chunk's SNR is mapped to a success probability by the
external error-rate model (`chunkSuccessProbability`, here the parameter
`csr`), and success probabilities chain multiplicatively across chunks. -/

/-- Success rate contributed by one ledger chunk `[a, b]`, clipped to the
requested window `[w0, w1]`; a chunk with no positive overlap contributes a
neutral factor 1 (`InterferenceHelper::CalculateChunkSuccessRate` applied to
the clipped duration). -/
def chunkRate (csr : ℚ → ℤ → ℚ) (snr : ℚ) (w0 w1 a b : ℤ) : ℚ :=
  if 0 < min b w1 - max a w0 then csr snr (min b w1 - max a w0) else 1

/-- Consecutive pairs of a list of chunk boundaries. -/
def consecutivePairs : List ℤ → List (ℤ × ℤ)
  | [] => []
  | [_] => []
  | a :: b :: rest => (a, b) :: consecutivePairs (b :: rest)

/-- The per-chunk success probabilities of a window: one factor per pair of
consecutive ledger boundaries. -/
def chunkSuccessList (csr : ℚ → ℤ → ℚ) (snrAt : ℤ → ℚ) (bs : List ℤ)
    (w0 w1 : ℤ) : List ℚ :=
  (consecutivePairs bs).map (fun p => chunkRate csr (snrAt p.1) w0 w1 p.1 p.2)

/-- Modelled from the spec (§4.3 step 4): walk the chunk boundaries and
accumulate the product of per-chunk success probabilities over the window
(the loop body of `InterferenceHelper::CalculatePayloadPer`;
`interference-helper.cc` is not among the sources).  The SNR is
piecewise-constant between boundaries and is sampled at each chunk's start. -/
def psrWindow (csr : ℚ → ℤ → ℚ) (snrAt : ℤ → ℚ) : List ℤ → ℤ → ℤ → ℚ
  | [], _, _ => 1
  | [_], _, _ => 1
  | a :: b :: rest, w0, w1 =>
    chunkRate csr (snrAt a) w0 w1 a b * psrWindow csr snrAt (b :: rest) w0 w1

/-- Linear SNR at time `t` against a band's ledger: signal power over noise
floor plus the accumulated interference power (§4.3 step 2). -/
def niSnrAt (signalW noiseFloorW : ℚ) (ni : NiChanges) (t : ℤ) : ℚ :=
  signalW / (noiseFloorW + powerAt ni t)

/-- Modelled from the spec (§4.3): `InterferenceHelper::CalculatePayloadPer`
over one band — the PER of the payload in the window is one minus the product
of per-chunk success rates, the chunks being delimited by the band's ledger
change times (`interference-helper.cc` is not among the sources). -/
def calculatePayloadPer (csr : ℚ → ℤ → ℚ) (signalW noiseFloorW : ℚ)
    (ni : NiChanges) (window : ℤ × ℤ) : ℚ :=
  1 - psrWindow csr (niSnrAt signalW noiseFloorW ni) (ni.map Prod.fst)
        window.1 window.2

/-- `InterferenceHelper::CalculatePayloadSnrPer`: the SNR at the start of the
window together with the PER evaluated over the window (the `SnrPer` pair). -/
def calculatePayloadSnrPer (csr : ℚ → ℤ → ℚ) (signalW noiseFloorW : ℚ)
    (ni : NiChanges) (window : ℤ × ℤ) : ℚ × ℚ :=
  (niSnrAt signalW noiseFloorW ni window.1,
    calculatePayloadPer csr signalW noiseFloorW ni window)

/-! ## Channel-bonding width decision (§4.5) -/

/-- Modelled from the spec (§4.5): `WifiPhy::GetUsableChannelWidth` with the
constant-threshold channel-bonding manager (`wifi-phy.cc` and the bonding
managers are not among the sources; `wifi-phy.h` only declares the method).
`secondaryIdle` lists, outward from the primary, how long each secondary
20 MHz sub-band has been continuously idle before the transmit decision; a
sub-band is included while its idle time reaches PIFS, and the first sub-band
not idle long enough caps the width. -/
def getUsableChannelWidth (pifs : ℤ) (secondaryIdle : List ℤ) : ℕ :=
  20 * (1 + (secondaryIdle.takeWhile (fun d => decide (pifs ≤ d))).length)

/-! ## Receive-abort bookkeeping (§5) -/

/-- An `EventId` handle of the discrete-event scheduler. -/
abbrev EventId := ℕ

/-- The discrete-event scheduler's set of still-pending callback handles. -/
structure Scheduler where
  pending : List EventId

/-- `EventId::Cancel` through the scheduler: the handle no longer fires. -/
def Scheduler.cancel (s : Scheduler) (id : EventId) : Scheduler :=
  ⟨s.pending.filter (fun x => decide (x ≠ id))⟩

/-- Cancel every handle of a list. -/
def Scheduler.cancelAll (s : Scheduler) : List EventId → Scheduler
  | [] => s
  | id :: rest => (s.cancel id).cancelAll rest

/-- The pending receive callbacks tracked by `WifiPhy` (`wifi-phy.h`):
`m_endPlcpRxEvent` (end of the PHY header), `m_endRxEvents` (end of payload,
one per concurrent UL MU reception) and `m_endOfMpduEvents` (end of MPDU,
one per sub-frame of an A-MPDU). -/
structure PhyRxEvents where
  endPlcpRxEvent : EventId
  endOfMpduEvents : List EventId
  endRxEvents : List EventId

/-- The receive-side scheduling state of a PHY. -/
structure WifiPhyModel where
  sched : Scheduler
  rxEvents : PhyRxEvents

/-- Modelled from the spec (§5): `WifiPhy::AbortCurrentReception` cancels
every pending callback associated with the aborted reception — end-of-header,
end-of-payload and the end-of-MPDU event of every sub-frame — and clears the
bookkeeping lists (`wifi-phy.cc` is not among the sources). -/
def abortCurrentReception (phy : WifiPhyModel) : WifiPhyModel :=
  ⟨phy.sched.cancelAll
      (phy.rxEvents.endPlcpRxEvent ::
        (phy.rxEvents.endOfMpduEvents ++ phy.rxEvents.endRxEvents)),
    ⟨phy.rxEvents.endPlcpRxEvent, [], []⟩⟩

/-! ## Delay until idle (`WifiPhy::GetDelayUntilIdle`) -/

/-- The busy horizon of a PHY: current time and the scheduled end of every
busy condition (transmission, reception, CCA busy, channel switch).
Modelled from the spec (§4.4, §5): the state helper holding these horizons
(`wifi-phy-state-helper`) is not among the sources. -/
structure PhyOperatingState where
  now : ℤ
  endTx : ℤ
  endRx : ℤ
  endCcaBusy : ℤ
  endSwitching : ℤ
deriving DecidableEq, Repr

/-- Latest scheduled end among all busy conditions. -/
def busyUntil (s : PhyOperatingState) : ℤ :=
  max (max s.endTx s.endRx) (max s.endCcaBusy s.endSwitching)

/-- The PHY is IDLE exactly when every scheduled busy period has ended. -/
def isStateIdle (s : PhyOperatingState) : Bool :=
  decide (busyUntil s ≤ s.now)

/-- `WifiPhy::GetDelayUntilIdle`: the predicted delay until the PHY can
become IDLE, from the already-scheduled busy ends. -/
def getDelayUntilIdle (s : PhyOperatingState) : ℤ :=
  max 0 (busyUntil s - s.now)

/-- Modelled from the spec (§5): evolution of the busy horizon in a
discrete-event simulation.  Simulated time only advances, and a newly
arriving signal or transmission can only extend the scheduled busy ends
(durations are fixed at transmission time; predictions are advisory because
new arrivals can lengthen, never shorten, the busy period). -/
inductive PhyStep : PhyOperatingState → PhyOperatingState → Prop
  | advance (s : PhyOperatingState) (d : ℤ) (hd : 0 ≤ d) :
      PhyStep s ⟨s.now + d, s.endTx, s.endRx, s.endCcaBusy, s.endSwitching⟩
  | extend (s : PhyOperatingState) (tx rx cca sw : ℤ) (htx : s.endTx ≤ tx)
      (hrx : s.endRx ≤ rx) (hcca : s.endCcaBusy ≤ cca)
      (hsw : s.endSwitching ≤ sw) :
      PhyStep s ⟨s.now, tx, rx, cca, sw⟩

/-- Reachability along `PhyStep` evolutions. -/
def PhyReach : PhyOperatingState → PhyOperatingState → Prop :=
  Relation.ReflTransGen PhyStep

end WifiFormal

namespace WifiFormal

lemma dbToRatio_pos (d : ℝ) : 0 < dbToRatio d :=
  Real.rpow_pos_of_pos (by norm_num) _

lemma rpow_div_nat_pow (p q : ℕ) (hq : q ≠ 0) :
    ((10 : ℝ) ^ ((p : ℝ) / (q : ℝ))) ^ q = (10 : ℝ) ^ p := by
  have h10 : (0 : ℝ) ≤ 10 := by norm_num
  rw [← Real.rpow_natCast ((10 : ℝ) ^ ((p : ℝ) / (q : ℝ))) q, ← Real.rpow_mul h10,
    div_mul_cancel₀, Real.rpow_natCast]
  exact_mod_cast hq

lemma le_rpow_div_of_pow_le {a : ℝ} (p q : ℕ) (hq : q ≠ 0)
    (h : a ^ q ≤ (10 : ℝ) ^ p) : a ≤ (10 : ℝ) ^ ((p : ℝ) / (q : ℝ)) := by
  have hx : (0 : ℝ) < (10 : ℝ) ^ ((p : ℝ) / (q : ℝ)) :=
    Real.rpow_pos_of_pos (by norm_num) _
  refine le_of_pow_le_pow_left₀ hq hx.le ?_
  rw [rpow_div_nat_pow p q hq]
  exact h

lemma rpow_div_le_of_le_pow {a : ℝ} (p q : ℕ) (hq : q ≠ 0) (ha : 0 ≤ a)
    (h : (10 : ℝ) ^ p ≤ a ^ q) : (10 : ℝ) ^ ((p : ℝ) / (q : ℝ)) ≤ a := by
  refine le_of_pow_le_pow_left₀ hq ha ?_
  rw [rpow_div_nat_pow p q hq]
  exact h

lemma ratioToDb_dbToRatio (d : ℝ) : ratioToDb (dbToRatio d) = d := by
  have h10 : (0 : ℝ) < 10 := by norm_num
  have hlog : Real.log 10 ≠ 0 := by
    have := Real.log_pos (by norm_num : (1 : ℝ) < 10)
    exact ne_of_gt this
  unfold ratioToDb dbToRatio
  rw [Real.log_rpow h10]
  field_simp

lemma ratioToDb_le_of_le {x d : ℝ} (hx : 0 < x) (h : x ≤ dbToRatio d) :
    ratioToDb x ≤ d := by
  have hlogpos : 0 < Real.log 10 := Real.log_pos (by norm_num)
  have hlog : Real.log x ≤ Real.log (dbToRatio d) :=
    (Real.log_le_log_iff hx (dbToRatio_pos d)).mpr h
  have h2 : 10 * Real.log x / Real.log 10 ≤ 10 * Real.log (dbToRatio d) / Real.log 10 := by
    gcongr
  calc ratioToDb x ≤ ratioToDb (dbToRatio d) := h2
    _ = d := ratioToDb_dbToRatio d

lemma le_ratioToDb_of_le {x d : ℝ} (h : dbToRatio d ≤ x) :
    d ≤ ratioToDb x := by
  have hx : 0 < x := lt_of_lt_of_le (dbToRatio_pos d) h
  have hlogpos : 0 < Real.log 10 := Real.log_pos (by norm_num)
  have hlog : Real.log (dbToRatio d) ≤ Real.log x :=
    (Real.log_le_log_iff (dbToRatio_pos d) hx).mpr h
  have h2 : 10 * Real.log (dbToRatio d) / Real.log 10 ≤ 10 * Real.log x / Real.log 10 := by
    gcongr
  calc d = ratioToDb (dbToRatio d) := (ratioToDb_dbToRatio d).symm
    _ ≤ ratioToDb x := h2

lemma linearMin_replicate (n : ℕ) (hn : 1 ≤ n) (s : ℝ) :
    linearMin (List.replicate n s) = s := by
  induction n with
  | zero => omega
  | succ m ih =>
    cases m with
    | zero => simp [linearMin]
    | succ k =>
      have hrep : List.replicate (k + 1 + 1) s = s :: List.replicate (k + 1) s := rfl
      have hrep2 : List.replicate (k + 1) s = s :: List.replicate k s := rfl
      rw [hrep, hrep2, linearMin]
      rw [← hrep2, ih (by omega)]
      exact min_self s

lemma calculateEffectiveSnr_replicate (n : ℕ) (hn : 2 ≤ n) (s : ℝ) :
    calculateEffectiveSnr (List.replicate n s) = s + 15 * Real.log (n : ℝ) := by
  unfold calculateEffectiveSnr
  rw [List.length_replicate, linearMin_replicate n (by omega) s]
  rw [if_neg (by omega)]

lemma dbToRatio_three_bounds : 1.99 ≤ dbToRatio 3 ∧ dbToRatio 3 ≤ 2 := by
  constructor
  · have h : ((3 : ℝ)) / 10 = ((3 : ℕ) : ℝ) / ((10 : ℕ) : ℝ) := by norm_num
    unfold dbToRatio
    rw [h]
    exact le_rpow_div_of_pow_le 3 10 (by norm_num) (by norm_num)
  · have h : ((3 : ℝ)) / 10 = ((3 : ℕ) : ℝ) / ((10 : ℕ) : ℝ) := by norm_num
    unfold dbToRatio
    rw [h]
    exact rpow_div_le_of_le_pow 3 10 (by norm_num) (by norm_num) (by norm_num)

lemma log_two_bounds : 0.693 ≤ Real.log 2 ∧ Real.log 2 ≤ 0.6932 := by
  constructor
  · linarith [Real.log_two_gt_d9]
  · linarith [Real.log_two_lt_d9]

lemma dbToRatio_le_of_pow (d : ℝ) (p q : ℕ) (a : ℝ) (hq : q ≠ 0) (ha : 0 ≤ a)
    (hd : d / 10 = (p : ℝ) / (q : ℝ)) (h : (10 : ℝ) ^ p ≤ a ^ q) : dbToRatio d ≤ a := by
  unfold dbToRatio
  rw [hd]
  exact rpow_div_le_of_le_pow p q hq ha h

lemma le_dbToRatio_of_pow (d : ℝ) (p q : ℕ) (a : ℝ) (hq : q ≠ 0)
    (hd : d / 10 = (p : ℝ) / (q : ℝ)) (h : a ^ q ≤ (10 : ℝ) ^ p) : a ≤ dbToRatio d := by
  unfold dbToRatio
  rw [hd]
  exact le_rpow_div_of_pow_le p q hq h

lemma effSnr_two_linear :
    calculateEffectiveSnr (List.replicate 2 (dbToRatio 3)) = dbToRatio 3 + 15 * Real.log 2 := by
  rw [calculateEffectiveSnr_replicate 2 (by norm_num) (dbToRatio 3)]
  norm_num

lemma effSnr_four_linear :
    calculateEffectiveSnr (List.replicate 4 (dbToRatio 3)) = dbToRatio 3 + 30 * Real.log 2 := by
  rw [calculateEffectiveSnr_replicate 4 (by norm_num) (dbToRatio 3)]
  have h4 : ((4 : ℕ) : ℝ) = 2 ^ 2 := by norm_num
  rw [h4, Real.log_pow]
  push_cast
  ring

lemma effSnr_eight_linear :
    calculateEffectiveSnr (List.replicate 8 (dbToRatio 3)) = dbToRatio 3 + 45 * Real.log 2 := by
  rw [calculateEffectiveSnr_replicate 8 (by norm_num) (dbToRatio 3)]
  have h8 : ((8 : ℕ) : ℝ) = 2 ^ 3 := by norm_num
  rw [h8, Real.log_pow]
  push_cast
  ring

lemma effSnr_two_db_bounds :
    10.8 ≤ ratioToDb (calculateEffectiveSnr (List.replicate 2 (dbToRatio 3))) ∧
    ratioToDb (calculateEffectiveSnr (List.replicate 2 (dbToRatio 3))) ≤ 11 := by
  obtain ⟨hd1, hd2⟩ := dbToRatio_three_bounds
  obtain ⟨hl1, hl2⟩ := log_two_bounds
  rw [effSnr_two_linear]
  constructor
  · apply le_ratioToDb_of_le
    have hstep : dbToRatio 10.8 ≤ 12.385 := by
      apply dbToRatio_le_of_pow 10.8 27 25 _ (by norm_num) (by norm_num) (by norm_num)
      norm_num
    linarith
  · apply ratioToDb_le_of_le (by linarith)
    have hstep : (12.398 : ℝ) ≤ dbToRatio 11 := by
      apply le_dbToRatio_of_pow 11 11 10 _ (by norm_num) (by norm_num)
      norm_num
    linarith

lemma effSnr_four_db_bounds :
    13.5 ≤ ratioToDb (calculateEffectiveSnr (List.replicate 4 (dbToRatio 3))) ∧
    ratioToDb (calculateEffectiveSnr (List.replicate 4 (dbToRatio 3))) ≤ 13.7 := by
  obtain ⟨hd1, hd2⟩ := dbToRatio_three_bounds
  obtain ⟨hl1, hl2⟩ := log_two_bounds
  rw [effSnr_four_linear]
  constructor
  · apply le_ratioToDb_of_le
    have hstep : dbToRatio 13.5 ≤ 22.78 := by
      apply dbToRatio_le_of_pow 13.5 27 20 _ (by norm_num) (by norm_num) (by norm_num)
      norm_num
    linarith
  · apply ratioToDb_le_of_le (by linarith)
    have hstep : (22.796 : ℝ) ≤ dbToRatio 13.7 := by
      apply le_dbToRatio_of_pow 13.7 137 100 _ (by norm_num) (by norm_num)
      norm_num
    linarith

lemma effSnr_eight_db_bounds :
    15.1 ≤ ratioToDb (calculateEffectiveSnr (List.replicate 8 (dbToRatio 3))) ∧
    ratioToDb (calculateEffectiveSnr (List.replicate 8 (dbToRatio 3))) ≤ 15.3 := by
  obtain ⟨hd1, hd2⟩ := dbToRatio_three_bounds
  obtain ⟨hl1, hl2⟩ := log_two_bounds
  rw [effSnr_eight_linear]
  constructor
  · apply le_ratioToDb_of_le
    have hstep : dbToRatio 15.1 ≤ 33.175 := by
      apply dbToRatio_le_of_pow 15.1 151 100 _ (by norm_num) (by norm_num) (by norm_num)
      norm_num
    linarith
  · apply ratioToDb_le_of_le (by linarith)
    have hstep : (33.194 : ℝ) ≤ dbToRatio 15.3 := by
      apply le_dbToRatio_of_pow 15.3 153 100 _ (by norm_num) (by norm_num)
      norm_num
    linarith

lemma effSnr_one_db :
    ratioToDb (calculateEffectiveSnr (List.replicate 1 (dbToRatio 3))) = 3 := by
  have h : calculateEffectiveSnr (List.replicate 1 (dbToRatio 3)) = dbToRatio 3 := by
    unfold calculateEffectiveSnr
    simp [linearMin]
  rw [h, ratioToDb_dbToRatio]

/-- C1: with every active 20 MHz sub-band at the same worst-case SNR of 3 dB,
the effective SNR reported on reception completion is 3 dB for one active
sub-band (20 MHz), about 10.9 dB for two (40 MHz), about 13.6 dB for four
(80 MHz) and about 15.2 dB for eight (160 MHz), each within 0.1 dB — the
worked examples of `TestEffectiveSnrCalculations::DoRun`. -/
theorem effective_snr_worked_examples :
    |ratioToDb (calculateEffectiveSnr (List.replicate 1 (dbToRatio 3))) - 3| ≤ 0.1 ∧
    |ratioToDb (calculateEffectiveSnr (List.replicate 2 (dbToRatio 3))) - 10.9| ≤ 0.1 ∧
    |ratioToDb (calculateEffectiveSnr (List.replicate 4 (dbToRatio 3))) - 13.6| ≤ 0.1 ∧
    |ratioToDb (calculateEffectiveSnr (List.replicate 8 (dbToRatio 3))) - 15.2| ≤ 0.1 := by
  refine ⟨?_, ?_, ?_, ?_⟩
  · rw [effSnr_one_db]
    norm_num
  · obtain ⟨h1, h2⟩ := effSnr_two_db_bounds
    rw [abs_le]
    constructor <;> linarith
  · obtain ⟨h1, h2⟩ := effSnr_four_db_bounds
    rw [abs_le]
    constructor <;> linarith
  · obtain ⟨h1, h2⟩ := effSnr_eight_db_bounds
    rw [abs_le]
    constructor <;> linarith

/-- C2 counterexample: at a worst-case per-sub-band SNR of 3 dB with two active
sub-bands, the effective SNR in dB is at most 11 dB, whereas the claimed
formula `s(dB) + 15 * ln N` gives `3 + 15 * ln 2 > 13` dB.  The `15 * ln N`
bonus is therefore not added in the dB domain. -/
theorem effective_snr_db_additive_counterexample :
    ratioToDb (calculateEffectiveSnr (List.replicate 2 (dbToRatio 3))) ≠
      3 + 15 * Real.log 2 := by
  obtain ⟨h1, h2⟩ := effSnr_two_db_bounds
  obtain ⟨hl1, hl2⟩ := log_two_bounds
  intro h
  rw [h] at h2
  linarith

/-- C2 (amended): for a bonded transmission with `N ≥ 2` active 20 MHz
sub-bands each at the same worst-case linear SNR `s`, the effective SNR
equals the minimum per-sub-band SNR plus a bonus of `15 * ln N` added in the
linear domain: `effectiveSNR(linear) = s(linear) + 15 * ln N` (hence in dB it
is `10 * log10 (s_linear + 15 * ln N)`, not `s(dB) + 15 * ln N`). -/
theorem effective_snr_linear_domain_bonus (s : ℝ) (n : ℕ) (hn : 2 ≤ n) :
    calculateEffectiveSnr (List.replicate n s) = s + 15 * Real.log (n : ℝ) :=
  calculateEffectiveSnr_replicate n hn s

/-- Witness for the amended C2 theorem at the concrete input `s = 2`, `N = 2`. -/
theorem effective_snr_linear_domain_bonus_witness :
    calculateEffectiveSnr (List.replicate 2 (2 : ℝ)) = 2 + 15 * Real.log ((2 : ℕ) : ℝ) :=
  effective_snr_linear_domain_bonus 2 2 (by norm_num)

lemma niInsert_head_cases (m : ℤ) (c : NiChange) :
    ∀ ni : NiChanges, (niInsert m c ni).head? = some (m, c) ∨
      (niInsert m c ni).head? = ni.head? := by
  intro ni
  match ni with
  | [] => left; rfl
  | a :: rest =>
    by_cases hlt : m < a.1
    · left
      simp [niInsert, hlt]
    · right
      simp [niInsert, hlt]

lemma sortedNi_niInsert (m : ℤ) (c : NiChange) :
    ∀ ni : NiChanges, sortedNi ni → sortedNi (niInsert m c ni) := by
  intro ni
  induction ni with
  | nil =>
    intro _
    simp [sortedNi, niInsert]
  | cons a rest ih =>
    intro h
    unfold sortedNi at h ⊢
    by_cases hlt : m < a.1
    · simp only [niInsert, if_pos hlt]
      exact List.Chain'.cons (le_of_lt hlt) h
    · simp only [niInsert, if_neg hlt]
      rw [List.chain'_cons']
      constructor
      · intro y hy
        rcases niInsert_head_cases m c rest with hc | hc
        · rw [hc] at hy
          simp only [Option.mem_def, Option.some_inj] at hy
          subst hy
          exact le_of_not_lt hlt
        · rw [hc] at hy
          exact (List.chain'_cons'.mp h).1 y hy
      · exact ih (List.Chain'.tail h)

lemma niSumBy_cons (f : ℤ × NiChange → ℚ) (x : ℤ × NiChange) (l : NiChanges) :
    niSumBy f (x :: l) = f x + niSumBy f l := by
  simp [niSumBy]

lemma niSumBy_niInsert (f : ℤ × NiChange → ℚ) (m : ℤ) (c : NiChange) :
    ∀ ni : NiChanges, niSumBy f (niInsert m c ni) = f (m, c) + niSumBy f ni := by
  intro ni
  induction ni with
  | nil => simp [niInsert, niSumBy]
  | cons a rest ih =>
    by_cases hlt : m < a.1
    · simp only [niInsert, if_pos hlt]
      rw [niSumBy_cons]
    · simp only [niInsert, if_neg hlt]
      rw [niSumBy_cons, ih, niSumBy_cons]
      ring

lemma addNiChangeEvent_ni (st : InterferenceHelper) (m : ℤ) (c : NiChange)
    (band b : FrequencyWidthPair) :
    (st.addNiChangeEvent m c band).niChangesPerBand b =
      if b = band then niInsert m c (st.niChangesPerBand b)
      else st.niChangesPerBand b := rfl

lemma appendEventBands_sorted (e : Event) :
    ∀ (rx : RxPowerWattPerChannelBand) (st : InterferenceHelper),
      (∀ b, sortedNi (st.niChangesPerBand b)) →
      ∀ b, sortedNi ((st.appendEventBands e rx).niChangesPerBand b) := by
  intro rx
  induction rx with
  | nil =>
    intro st h b
    exact h b
  | cons bp rest ih =>
    intro st h b
    obtain ⟨band, power⟩ := bp
    apply ih
    intro b2
    simp only [addNiChangeEvent_ni]
    split_ifs with h1
    · exact sortedNi_niInsert _ _ _ (sortedNi_niInsert _ _ _ (h b2))
    · exact h b2

lemma appendEventBands_lookup_none (e : Event) (band : FrequencyWidthPair) :
    ∀ (rx : RxPowerWattPerChannelBand) (st : InterferenceHelper),
      rxPowerLookup rx band = none →
      (st.appendEventBands e rx).niChangesPerBand band = st.niChangesPerBand band := by
  intro rx
  induction rx with
  | nil =>
    intro st _
    rfl
  | cons bp rest ih =>
    intro st hnone
    obtain ⟨b0, p0⟩ := bp
    simp only [rxPowerLookup] at hnone
    by_cases hb : b0 = band
    · rw [if_pos hb] at hnone
      exact absurd hnone (by simp)
    · rw [if_neg hb] at hnone
      rw [InterferenceHelper.appendEventBands, ih _ hnone]
      simp only [addNiChangeEvent_ni]
      rw [if_neg (fun h => hb h.symm), if_neg (fun h => hb h.symm)]

lemma appendEventBands_powerAt (e : Event) (t : ℤ)
    (he : e.startTime ≤ e.endTime) (ht : e.endTime ≤ t) :
    ∀ (rx : RxPowerWattPerChannelBand) (st : InterferenceHelper)
      (b : FrequencyWidthPair),
      powerAt ((st.appendEventBands e rx).niChangesPerBand b) t =
        powerAt (st.niChangesPerBand b) t := by
  intro rx
  induction rx with
  | nil =>
    intro st b
    rfl
  | cons bp rest ih =>
    intro st b
    obtain ⟨band, power⟩ := bp
    rw [InterferenceHelper.appendEventBands, ih]
    simp only [addNiChangeEvent_ni]
    split_ifs with h1
    · unfold powerAt
      rw [niSumBy_niInsert, niSumBy_niInsert]
      have h2 : e.startTime ≤ t := le_trans he ht
      simp only [if_pos ht, if_pos h2]
      ring
    · rfl

lemma appendEventBands_eventDeltaSum (e : Event) :
    ∀ (rx : RxPowerWattPerChannelBand) (st : InterferenceHelper)
      (b : FrequencyWidthPair),
      eventDeltaSum ((st.appendEventBands e rx).niChangesPerBand b) e =
        eventDeltaSum (st.niChangesPerBand b) e := by
  intro rx
  induction rx with
  | nil =>
    intro st b
    rfl
  | cons bp rest ih =>
    intro st b
    obtain ⟨band, power⟩ := bp
    rw [InterferenceHelper.appendEventBands, ih]
    simp only [addNiChangeEvent_ni]
    split_ifs with h1
    · unfold eventDeltaSum
      rw [niSumBy_niInsert, niSumBy_niInsert]
      simp
    · rfl

/-- C3: every ledger mutation (`AddNiChangeEvent`, `AppendEvent`, `Add`,
`AddForeignSignal`) keeps every band's `NiChanges` in non-decreasing time
order, and a signal event's contribution to a band nets to zero: its tagged
deltas sum to what they summed before it was appended, and once its end time
has passed the cumulative power (`PowerAt`) of every band is exactly what it
was without the signal — no residual power remains. -/
theorem niChanges_time_ordered_and_net_zero (st : InterferenceHelper)
    (e : Event) (m now duration t : ℤ) (c : NiChange) (bd : FrequencyWidthPair)
    (packet : ℕ) (v : WifiTxVector) (rx : RxPowerWattPerChannelBand)
    (band : FrequencyWidthPair)
    (hsorted : ∀ b, sortedNi (st.niChangesPerBand b))
    (he : e.startTime ≤ e.endTime) (ht : e.endTime ≤ t) :
    (∀ b, sortedNi ((st.addNiChangeEvent m c bd).niChangesPerBand b)) ∧
    (∀ b, sortedNi ((st.appendEvent e).niChangesPerBand b)) ∧
    (∀ b, sortedNi ((st.add now packet v duration rx).2.niChangesPerBand b)) ∧
    (∀ b, sortedNi ((st.addForeignSignal now duration rx).niChangesPerBand b)) ∧
    eventDeltaSum ((st.appendEvent e).niChangesPerBand band) e =
      eventDeltaSum (st.niChangesPerBand band) e ∧
    powerAt ((st.appendEvent e).niChangesPerBand band) t =
      powerAt (st.niChangesPerBand band) t := by
  refine ⟨?_, ?_, ?_, ?_, ?_, ?_⟩
  · intro b
    simp only [addNiChangeEvent_ni]
    split_ifs with h1
    · exact sortedNi_niInsert _ _ _ (hsorted b)
    · exact hsorted b
  · exact appendEventBands_sorted e e.rxPowerW st hsorted
  · exact appendEventBands_sorted _ _ st hsorted
  · exact appendEventBands_sorted _ _ st hsorted
  · exact appendEventBands_eventDeltaSum e e.rxPowerW st band
  · exact appendEventBands_powerAt e t he ht e.rxPowerW st band

/-- Witness for C3 at a concrete ledger state and signal event. -/
theorem niChanges_time_ordered_and_net_zero_witness :
    (∀ b, sortedNi ((InterferenceHelper.mk (fun _ => [])).addNiChangeEvent 4
      ⟨1, ⟨7, ⟨0⟩, 0, 6, [((5180, 20), 1)]⟩⟩ (5180, 20) |>.niChangesPerBand b)) ∧
    (∀ b, sortedNi ((InterferenceHelper.mk (fun _ => [])).appendEvent
      ⟨7, ⟨0⟩, 0, 6, [((5180, 20), 1)]⟩ |>.niChangesPerBand b)) ∧
    (∀ b, sortedNi (((InterferenceHelper.mk (fun _ => [])).add 0 7 ⟨0⟩ 6
      [((5180, 20), 1)]).2.niChangesPerBand b)) ∧
    (∀ b, sortedNi ((InterferenceHelper.mk (fun _ => [])).addForeignSignal 0 6
      [((5180, 20), 1)] |>.niChangesPerBand b)) ∧
    eventDeltaSum ((InterferenceHelper.mk (fun _ => [])).appendEvent
        ⟨7, ⟨0⟩, 0, 6, [((5180, 20), 1)]⟩ |>.niChangesPerBand (5180, 20))
        ⟨7, ⟨0⟩, 0, 6, [((5180, 20), 1)]⟩ =
      eventDeltaSum ((fun _ => ([] : NiChanges)) (5180, 20))
        ⟨7, ⟨0⟩, 0, 6, [((5180, 20), 1)]⟩ ∧
    powerAt ((InterferenceHelper.mk (fun _ => [])).appendEvent
        ⟨7, ⟨0⟩, 0, 6, [((5180, 20), 1)]⟩ |>.niChangesPerBand (5180, 20)) 8 =
      powerAt ((fun _ => ([] : NiChanges)) (5180, 20)) 8 :=
  niChanges_time_ordered_and_net_zero (InterferenceHelper.mk (fun _ => []))
    ⟨7, ⟨0⟩, 0, 6, [((5180, 20), 1)]⟩ 4 0 6 8
    ⟨1, ⟨7, ⟨0⟩, 0, 6, [((5180, 20), 1)]⟩⟩ (5180, 20) 7 ⟨0⟩ [((5180, 20), 1)]
    (5180, 20) (fun _ => by simp [sortedNi]) (by norm_num) (by norm_num)

/-- C4: if two signal events occupy disjoint frequency bands, the computed
noise-plus-interference power for a band occupied by `A` is the same whether
or not `B` has been added with `Add` — two-run independence of
`CalculateNoiseInterferenceW` across disjoint bands. -/
theorem disjoint_band_noise_independence (st : InterferenceHelper) (now : ℤ)
    (eA : Event) (packetB : ℕ) (vB : WifiTxVector) (durationB : ℤ)
    (rxB : RxPowerWattPerChannelBand) (band : FrequencyWidthPair) (pA : ℚ)
    (_hA : rxPowerLookup eA.rxPowerW band = some pA)
    (hB : rxPowerLookup rxB band = none) :
    ((st.add now packetB vB durationB rxB).2).calculateNoiseInterferenceW eA band =
      st.calculateNoiseInterferenceW eA band := by
  unfold InterferenceHelper.calculateNoiseInterferenceW
  rw [show ((st.add now packetB vB durationB rxB).2).niChangesPerBand band =
    st.niChangesPerBand band from appendEventBands_lookup_none _ band rxB st hB]

/-- Witness for C4 at a concrete ledger and a concrete pair of events on
disjoint bands. -/
theorem disjoint_band_noise_independence_witness :
    (((InterferenceHelper.mk (fun _ => [])).add 2 9 ⟨0⟩ 5
        [((5200, 20), 3)]).2).calculateNoiseInterferenceW
      ⟨8, ⟨0⟩, 0, 6, [((5180, 20), 2)]⟩ (5180, 20) =
    (InterferenceHelper.mk (fun _ => [])).calculateNoiseInterferenceW
      ⟨8, ⟨0⟩, 0, 6, [((5180, 20), 2)]⟩ (5180, 20) :=
  disjoint_band_noise_independence (InterferenceHelper.mk (fun _ => [])) 2
    ⟨8, ⟨0⟩, 0, 6, [((5180, 20), 2)]⟩ 9 ⟨0⟩ 5 [((5200, 20), 3)] (5180, 20) 2
    (by decide) (by decide)

/-- C9 counterexample: an `Event` is not immutable once created; the public
member `Event::SetTxVector` changes its transmission parameters, shown here
on a concrete event. -/
theorem event_setTxVector_mutates_txVector :
    (Event.setTxVector ⟨0, ⟨0⟩, 0, 5, []⟩ ⟨1⟩).txVector ≠
      (⟨0, ⟨0⟩, 0, 5, []⟩ : Event).txVector := by
  decide

/-- C9 (amended): a signal `Event` is immutable once created except for its
TXVECTOR, which `Event::SetTxVector` replaces; no operation changes its
packet, start time, end time or per-band receive power. -/
theorem event_immutable_except_txVector (e : Event) (v : WifiTxVector) :
    (e.setTxVector v).packet = e.packet ∧
    (e.setTxVector v).startTime = e.startTime ∧
    (e.setTxVector v).endTime = e.endTime ∧
    (e.setTxVector v).rxPowerW = e.rxPowerW :=
  ⟨rfl, rfl, rfl, rfl⟩

lemma takeWhile_length_iff (p : ℤ → Bool) :
    ∀ (l : List ℤ) (i : ℕ), i < l.length →
      (i < (l.takeWhile p).length ↔ ∀ d ∈ l.take (i + 1), p d = true) := by
  intro l
  induction l with
  | nil =>
    intro i hi
    simp at hi
  | cons x xs ih =>
    intro i hi
    by_cases hp : p x
    · cases i with
      | zero =>
        simp [List.takeWhile, hp]
      | succ j =>
        have hj : j < xs.length := by
          simp at hi
          omega
        have := ih j hj
        simp only [List.takeWhile, hp, List.length_cons, List.take, List.mem_cons]
        constructor
        · intro hlen d hd
          rcases hd with hd | hd
          · subst hd
            exact hp
          · exact (this.mp (by omega)) d hd
        · intro hall
          have h2 : j < (xs.takeWhile p).length :=
            this.mpr (fun d hd => hall d (Or.inr hd))
          omega
    · simp only [List.takeWhile, hp]
      have hx : x ∈ (x :: xs).take (i + 1) := by
        simp [List.take]
      constructor
      · intro hlen
        simp at hlen
      · intro hall
        have := hall x hx
        rw [this] at hp
        exact absurd rfl hp

/-- C5: `GetUsableChannelWidth` includes a secondary 20 MHz sub-band in the
returned width if and only if that sub-band and every sub-band between it and
the primary have been continuously idle for at least PIFS immediately before
the transmit decision; the first sub-band not idle long enough caps the
width, so an idle gap shorter than PIFS excludes the sub-band and a gap of at
least PIFS (with all inner sub-bands idle as well) includes it. -/
theorem usable_width_pifs_iff (pifs : ℤ) (idles : List ℤ) (i : ℕ)
    (hi : i < idles.length) :
    20 * (i + 2) ≤ getUsableChannelWidth pifs idles ↔
      ∀ d ∈ idles.take (i + 1), pifs ≤ d := by
  have hiff := takeWhile_length_iff (fun d => decide (pifs ≤ d)) idles i hi
  unfold getUsableChannelWidth
  constructor
  · intro h d hd
    have hlen : i < (idles.takeWhile (fun d => decide (pifs ≤ d))).length := by
      omega
    have := (hiff.mp hlen) d hd
    simpa using this
  · intro h
    have hlen : i < (idles.takeWhile (fun d => decide (pifs ≤ d))).length :=
      hiff.mpr (fun d hd => by simpa using h d hd)
    omega

/-- Witness for C5: PIFS 25 with the first secondary idle long enough (30)
and the next one not (20). -/
theorem usable_width_pifs_iff_witness :
    (20 * (0 + 2) ≤ getUsableChannelWidth 25 [30, 20] ↔
      ∀ d ∈ ([30, 20] : List ℤ).take (0 + 1), (25 : ℤ) ≤ d) :=
  usable_width_pifs_iff 25 [30, 20] 0 (by norm_num)

lemma psrWindow_degenerate (csr : ℚ → ℤ → ℚ) (snrAt : ℤ → ℚ) (w0 w1 : ℤ)
    (hw : w1 ≤ w0) :
    ∀ bs : List ℤ, psrWindow csr snrAt bs w0 w1 = 1 := by
  intro bs
  induction bs with
  | nil => rfl
  | cons a rest ih =>
    cases rest with
    | nil => rfl
    | cons b rest2 =>
      rw [psrWindow, ih]
      have hle : min b w1 - max a w0 ≤ 0 := by
        have h1 : min b w1 ≤ w1 := min_le_right _ _
        have h2 : w0 ≤ max a w0 := le_max_right _ _
        linarith
      rw [chunkRate, if_neg (by linarith)]
      ring

/-- C6: a requested time window of zero length trivially succeeds — the
payload PER computed by `CalculatePayloadPer` and by
`CalculatePayloadSnrPer` over the window `(t, t)` is 0, for every ledger,
signal power, noise floor and error-rate model. -/
theorem zero_window_payload_per_zero (csr : ℚ → ℤ → ℚ)
    (signalW noiseFloorW : ℚ) (ni : NiChanges) (t : ℤ) :
    calculatePayloadPer csr signalW noiseFloorW ni (t, t) = 0 ∧
    (calculatePayloadSnrPer csr signalW noiseFloorW ni (t, t)).2 = 0 := by
  have h : calculatePayloadPer csr signalW noiseFloorW ni (t, t) = 0 := by
    unfold calculatePayloadPer
    rw [psrWindow_degenerate _ _ t t (le_refl t)]
    ring
  exact ⟨h, h⟩

lemma chain_head_le :
    ∀ (l : List ℤ) (x y : ℤ), List.Chain' (fun a b => a ≤ b) (x :: l) →
      y ∈ x :: l → x ≤ y := by
  intro l
  induction l with
  | nil =>
    intro x y _ hy
    simp at hy
    omega
  | cons b rest ih =>
    intro x y hchain hy
    rcases List.mem_cons.mp hy with hy | hy
    · omega
    · have hxb : x ≤ b := (List.chain'_cons.mp hchain).1
      have := ih b y (List.chain'_cons.mp hchain).2 hy
      omega

lemma consecutivePairs_fst_mem :
    ∀ (l : List ℤ) (p : ℤ × ℤ), p ∈ consecutivePairs l → p.1 ∈ l := by
  intro l
  induction l with
  | nil =>
    intro p hp
    simp [consecutivePairs] at hp
  | cons a rest ih =>
    intro p hp
    cases rest with
    | nil => simp [consecutivePairs] at hp
    | cons b rest2 =>
      rw [consecutivePairs] at hp
      rcases List.mem_cons.mp hp with hp | hp
      · subst hp
        exact List.mem_cons_self _ _
      · exact List.mem_cons_of_mem _ (ih p hp)

lemma pairs_avoid_boundary (t1 : ℤ) :
    ∀ bs : List ℤ, List.Chain' (fun a b => a ≤ b) bs → t1 ∈ bs →
      ∀ p ∈ consecutivePairs bs, t1 ≤ p.1 ∨ p.2 ≤ t1 := by
  intro bs
  induction bs with
  | nil =>
    intro _ hmem
    simp at hmem
  | cons a rest ih =>
    intro hchain hmem p hp
    cases rest with
    | nil => simp [consecutivePairs] at hp
    | cons b rest2 =>
      rw [consecutivePairs] at hp
      rcases List.mem_cons.mp hmem with hma | hma
      · subst hma
        rcases List.mem_cons.mp hp with hp | hp
        · subst hp
          exact Or.inl (le_refl _)
        · left
          have hfst : p.1 ∈ b :: rest2 := consecutivePairs_fst_mem _ p hp
          have hab : t1 ≤ b := (List.chain'_cons.mp hchain).1
          have := chain_head_le rest2 b p.1 (List.chain'_cons.mp hchain).2 hfst
          omega
      · rcases List.mem_cons.mp hp with hp | hp
        · subst hp
          right
          exact chain_head_le rest2 b t1 (List.chain'_cons.mp hchain).2 hma
        · exact ih (List.chain'_cons.mp hchain).2 hma p hp

lemma chunkRate_split (csr : ℚ → ℤ → ℚ) (snr : ℚ) (a b w0 t1 w1 : ℤ)
    (hcond : t1 ≤ a ∨ b ≤ t1) (h0 : w0 ≤ t1) (h1 : t1 ≤ w1) :
    chunkRate csr snr w0 w1 a b =
      chunkRate csr snr w0 t1 a b * chunkRate csr snr t1 w1 a b := by
  rcases hcond with hc | hc
  · have hdeg : ¬ 0 < min b t1 - max a w0 := by omega
    unfold chunkRate
    rw [if_neg hdeg, one_mul, max_eq_left hc, max_eq_left (le_trans h0 hc)]
  · have hdeg : ¬ 0 < min b w1 - max a t1 := by omega
    unfold chunkRate
    rw [if_neg hdeg, mul_one, min_eq_left hc, min_eq_left (le_trans hc h1)]

lemma psrWindow_split (csr : ℚ → ℤ → ℚ) (snrAt : ℤ → ℚ) (t1 : ℤ) :
    ∀ (bs : List ℤ) (w0 w1 : ℤ),
      (∀ p ∈ consecutivePairs bs, t1 ≤ p.1 ∨ p.2 ≤ t1) → w0 ≤ t1 → t1 ≤ w1 →
      psrWindow csr snrAt bs w0 w1 =
        psrWindow csr snrAt bs w0 t1 * psrWindow csr snrAt bs t1 w1 := by
  intro bs
  induction bs with
  | nil =>
    intro w0 w1 _ _ _
    simp [psrWindow]
  | cons a rest ih =>
    intro w0 w1 hcond h0 h1
    cases rest with
    | nil => simp [psrWindow]
    | cons b rest2 =>
      rw [psrWindow, psrWindow, psrWindow]
      have hpair : t1 ≤ a ∨ b ≤ t1 := by
        have := hcond (a, b) (by rw [consecutivePairs]; exact List.mem_cons_self _ _)
        simpa using this
      rw [chunkRate_split csr (snrAt a) a b w0 t1 w1 hpair h0 h1]
      rw [ih w0 w1 (fun p hp => hcond p (by rw [consecutivePairs]; exact List.mem_cons_of_mem _ hp)) h0 h1]
      ring

lemma psrWindow_eq_prod (csr : ℚ → ℤ → ℚ) (snrAt : ℤ → ℚ) :
    ∀ (bs : List ℤ) (w0 w1 : ℤ),
      psrWindow csr snrAt bs w0 w1 = (chunkSuccessList csr snrAt bs w0 w1).prod := by
  intro bs
  induction bs with
  | nil =>
    intro w0 w1
    simp [psrWindow, chunkSuccessList, consecutivePairs]
  | cons a rest ih =>
    intro w0 w1
    cases rest with
    | nil => simp [psrWindow, chunkSuccessList, consecutivePairs]
    | cons b rest2 =>
      rw [psrWindow, ih]
      unfold chunkSuccessList
      rw [consecutivePairs]
      simp

/-- C7: the payload PER over a window equals one minus the product over all
chunks of the per-chunk success probability (independent-chunk
multiplicative composition); and splitting the window at any interior ledger
boundary and multiplying the two sub-windows' success probabilities yields
the whole window's success probability. -/
theorem payload_per_chunk_product_split (csr : ℚ → ℤ → ℚ)
    (signalW noiseFloorW : ℚ) (ni : NiChanges) (w0 t1 w1 : ℤ)
    (hsorted : sortedNi ni) (hmem : t1 ∈ ni.map Prod.fst)
    (h0 : w0 ≤ t1) (h1 : t1 ≤ w1) :
    calculatePayloadPer csr signalW noiseFloorW ni (w0, w1) =
      1 - (chunkSuccessList csr (niSnrAt signalW noiseFloorW ni)
            (ni.map Prod.fst) w0 w1).prod ∧
    1 - calculatePayloadPer csr signalW noiseFloorW ni (w0, w1) =
      (1 - calculatePayloadPer csr signalW noiseFloorW ni (w0, t1)) *
        (1 - calculatePayloadPer csr signalW noiseFloorW ni (t1, w1)) := by
  constructor
  · unfold calculatePayloadPer
    rw [psrWindow_eq_prod]
  · unfold calculatePayloadPer
    have hchain : List.Chain' (fun a b => a ≤ b) (ni.map Prod.fst) := by
      rw [List.chain'_map]
      exact hsorted
    have hcond := pairs_avoid_boundary t1 (ni.map Prod.fst) hchain hmem
    have := psrWindow_split csr (niSnrAt signalW noiseFloorW ni) t1
      (ni.map Prod.fst) w0 w1 hcond h0 h1
    rw [sub_sub_cancel, sub_sub_cancel, sub_sub_cancel]
    exact this

/-- Witness for C7 at a concrete three-entry ledger split at the interior
boundary 4. -/
theorem payload_per_chunk_product_split_witness :
    calculatePayloadPer (fun _ _ => (1 : ℚ) / 2) 5 1
        [(0, ⟨2, ⟨3, ⟨0⟩, 0, 9, []⟩⟩), (4, ⟨1, ⟨3, ⟨0⟩, 0, 9, []⟩⟩),
          (9, ⟨-3, ⟨3, ⟨0⟩, 0, 9, []⟩⟩)] (0, 9) =
      1 - (chunkSuccessList (fun _ _ => (1 : ℚ) / 2)
            (niSnrAt 5 1 [(0, ⟨2, ⟨3, ⟨0⟩, 0, 9, []⟩⟩), (4, ⟨1, ⟨3, ⟨0⟩, 0, 9, []⟩⟩),
              (9, ⟨-3, ⟨3, ⟨0⟩, 0, 9, []⟩⟩)])
            (([(0, ⟨2, ⟨3, ⟨0⟩, 0, 9, []⟩⟩), (4, ⟨1, ⟨3, ⟨0⟩, 0, 9, []⟩⟩),
              (9, ⟨-3, ⟨3, ⟨0⟩, 0, 9, []⟩⟩)] : NiChanges).map Prod.fst)
            0 9).prod ∧
    1 - calculatePayloadPer (fun _ _ => (1 : ℚ) / 2) 5 1
        [(0, ⟨2, ⟨3, ⟨0⟩, 0, 9, []⟩⟩), (4, ⟨1, ⟨3, ⟨0⟩, 0, 9, []⟩⟩),
          (9, ⟨-3, ⟨3, ⟨0⟩, 0, 9, []⟩⟩)] (0, 9) =
      (1 - calculatePayloadPer (fun _ _ => (1 : ℚ) / 2) 5 1
          [(0, ⟨2, ⟨3, ⟨0⟩, 0, 9, []⟩⟩), (4, ⟨1, ⟨3, ⟨0⟩, 0, 9, []⟩⟩),
            (9, ⟨-3, ⟨3, ⟨0⟩, 0, 9, []⟩⟩)] (0, 4)) *
        (1 - calculatePayloadPer (fun _ _ => (1 : ℚ) / 2) 5 1
          [(0, ⟨2, ⟨3, ⟨0⟩, 0, 9, []⟩⟩), (4, ⟨1, ⟨3, ⟨0⟩, 0, 9, []⟩⟩),
            (9, ⟨-3, ⟨3, ⟨0⟩, 0, 9, []⟩⟩)] (4, 9)) :=
  payload_per_chunk_product_split (fun _ _ => (1 : ℚ) / 2) 5 1
    [(0, ⟨2, ⟨3, ⟨0⟩, 0, 9, []⟩⟩), (4, ⟨1, ⟨3, ⟨0⟩, 0, 9, []⟩⟩),
      (9, ⟨-3, ⟨3, ⟨0⟩, 0, 9, []⟩⟩)] 0 4 9
    (by simp [sortedNi, List.chain'_cons]) (by decide) (by decide) (by decide)

lemma cancel_not_mem (s : Scheduler) (id : EventId) :
    id ∉ (s.cancel id).pending := by
  intro h
  unfold Scheduler.cancel at h
  have := List.of_mem_filter h
  simp at this

lemma cancel_preserves_not_mem (s : Scheduler) (id x : EventId)
    (hx : x ∉ s.pending) : x ∉ (s.cancel id).pending := by
  intro h
  exact hx (List.mem_of_mem_filter h)

lemma cancelAll_preserves_not_mem (x : EventId) :
    ∀ (ids : List EventId) (s : Scheduler), x ∉ s.pending →
      x ∉ (s.cancelAll ids).pending := by
  intro ids
  induction ids with
  | nil =>
    intro s hx
    exact hx
  | cons id rest ih =>
    intro s hx
    exact ih _ (cancel_preserves_not_mem s id x hx)

lemma cancelAll_not_mem (x : EventId) :
    ∀ (ids : List EventId) (s : Scheduler), x ∈ ids →
      x ∉ (s.cancelAll ids).pending := by
  intro ids
  induction ids with
  | nil =>
    intro s hx
    simp at hx
  | cons id rest ih =>
    intro s hx
    rcases List.mem_cons.mp hx with hx | hx
    · subst hx
      exact cancelAll_preserves_not_mem x rest _ (cancel_not_mem s x)
    · exact ih _ hx

/-- C8: aborting a reception cancels every pending scheduled callback
associated with it — the end-of-header event, every end-of-payload event and
the end-of-MPDU event of every sub-frame — so none of these handles remains
pending in the scheduler after `AbortCurrentReception`. -/
theorem abort_cancels_pending_rx_events (phy : WifiPhyModel) (id : EventId)
    (hid : id = phy.rxEvents.endPlcpRxEvent ∨ id ∈ phy.rxEvents.endOfMpduEvents ∨
      id ∈ phy.rxEvents.endRxEvents) :
    id ∉ (abortCurrentReception phy).sched.pending := by
  apply cancelAll_not_mem
  rcases hid with h | h | h
  · subst h
    exact List.mem_cons_self _ _
  · exact List.mem_cons_of_mem _ (List.mem_append_left _ h)
  · exact List.mem_cons_of_mem _ (List.mem_append_right _ h)

/-- Witness for C8: a concrete scheduler holding all handles of a reception
with two MPDU sub-frames; handle 3 is one of the end-of-MPDU events. -/
theorem abort_cancels_pending_rx_events_witness :
    (3 : EventId) ∉ (abortCurrentReception
      ⟨⟨[1, 2, 3, 4, 5]⟩, ⟨1, [2, 3], [4]⟩⟩).sched.pending :=
  abort_cancels_pending_rx_events ⟨⟨[1, 2, 3, 4, 5]⟩, ⟨1, [2, 3], [4]⟩⟩ 3
    (by decide)

lemma isStateIdle_mk (n a b c d : ℤ) :
    isStateIdle ⟨n, a, b, c, d⟩ = decide (max (max a b) (max c d) ≤ n) := rfl

lemma phyStep_mono {s s2 : PhyOperatingState} (h : PhyStep s s2) :
    s.now ≤ s2.now ∧ busyUntil s ≤ busyUntil s2 := by
  cases h with
  | advance d hd =>
    constructor
    · simp
      omega
    · simp [busyUntil]
  | extend tx rx cca sw htx hrx hcca hsw =>
    constructor
    · simp
    · unfold busyUntil
      simp only
      exact max_le_max (max_le_max htx hrx) (max_le_max hcca hsw)

lemma phyReach_mono {s s2 : PhyOperatingState} (h : PhyReach s s2) :
    s.now ≤ s2.now ∧ busyUntil s ≤ busyUntil s2 := by
  induction h with
  | refl => exact ⟨le_refl _, le_refl _⟩
  | tail _ hstep ih =>
    have := phyStep_mono hstep
    exact ⟨le_trans ih.1 this.1, le_trans ih.2 this.2⟩

/-- C10: `GetDelayUntilIdle` is a sound lower bound — along every evolution
of the busy horizon the PHY is never IDLE strictly before the current time
plus the returned delay, although there are evolutions that are still not
idle at the predicted time (the prediction is advisory, not an upper
bound). -/
theorem delay_until_idle_sound_lower_bound (s s2 : PhyOperatingState)
    (hreach : PhyReach s s2) (hlt : s2.now < s.now + getDelayUntilIdle s) :
    isStateIdle s2 = false ∧
    ∃ s3, PhyReach s s3 ∧ s.now + getDelayUntilIdle s ≤ s3.now ∧
      isStateIdle s3 = false := by
  constructor
  · obtain ⟨hnow, hbusy⟩ := phyReach_mono hreach
    unfold getDelayUntilIdle at hlt
    rcases le_total (busyUntil s) s.now with hb | hb
    · rw [max_eq_left (by omega)] at hlt
      omega
    · rw [max_eq_right (by omega)] at hlt
      have h2 : s2.now < busyUntil s2 := by omega
      unfold isStateIdle
      exact decide_eq_false (by omega)
  · refine ⟨⟨s.now + getDelayUntilIdle s, max s.now (busyUntil s) + 1,
      max s.now (busyUntil s) + 1, max s.now (busyUntil s) + 1,
      max s.now (busyUntil s) + 1⟩, ?_, le_refl _, ?_⟩
    · have hstep1 : PhyStep s ⟨s.now, max s.now (busyUntil s) + 1,
          max s.now (busyUntil s) + 1, max s.now (busyUntil s) + 1,
          max s.now (busyUntil s) + 1⟩ := by
        apply PhyStep.extend s
        all_goals
          have h1 : s.endTx ≤ busyUntil s := le_trans (le_max_left _ _) (le_max_left _ _)
          have h2 : s.endRx ≤ busyUntil s := le_trans (le_max_right _ _) (le_max_left _ _)
          have h3 : s.endCcaBusy ≤ busyUntil s := le_trans (le_max_left _ _) (le_max_right _ _)
          have h4 : s.endSwitching ≤ busyUntil s := le_trans (le_max_right _ _) (le_max_right _ _)
          have h5 : busyUntil s ≤ max s.now (busyUntil s) := le_max_right _ _
          omega
      have hstep2 : PhyStep
          ⟨s.now, max s.now (busyUntil s) + 1, max s.now (busyUntil s) + 1,
            max s.now (busyUntil s) + 1, max s.now (busyUntil s) + 1⟩
          ⟨s.now + getDelayUntilIdle s, max s.now (busyUntil s) + 1,
            max s.now (busyUntil s) + 1, max s.now (busyUntil s) + 1,
            max s.now (busyUntil s) + 1⟩ := by
        have hd : 0 ≤ getDelayUntilIdle s := le_max_left _ _
        exact PhyStep.advance _ (getDelayUntilIdle s) hd
      exact Relation.ReflTransGen.head hstep1 (Relation.ReflTransGen.single hstep2)
    · rw [isStateIdle_mk]
      apply decide_eq_false
      have hdelay : s.now + getDelayUntilIdle s = max s.now (busyUntil s) := by
        unfold getDelayUntilIdle
        rcases le_total (busyUntil s) s.now with hb | hb
        · rw [max_eq_left (by omega), max_eq_left hb]
          omega
        · rw [max_eq_right (by omega), max_eq_right hb]
          omega
      omega

/-- Witness for C10: a PHY at time 0 whose transmission ends at time 5 is not
idle now, and there is an evolution still not idle at the predicted time. -/
theorem delay_until_idle_sound_lower_bound_witness :
    isStateIdle ⟨0, 5, 0, 0, 0⟩ = false ∧
    ∃ s3, PhyReach ⟨0, 5, 0, 0, 0⟩ s3 ∧
      (0 : ℤ) + getDelayUntilIdle ⟨0, 5, 0, 0, 0⟩ ≤ s3.now ∧
      isStateIdle s3 = false := by
  have h := delay_until_idle_sound_lower_bound ⟨0, 5, 0, 0, 0⟩ ⟨0, 5, 0, 0, 0⟩
    Relation.ReflTransGen.refl (by decide)
  exact h

end WifiFormal
